import Mathlib

/-!
Verification of the inn-smsp-registry pipeline.

This file gives a shallow embedding of the two core scripts of the
repository and proves/refutes the specification claims against it.

Embedded code:
* `src/load_msp.py` — streaming XML extractor (`extract_inn_and_type`,
  `iter_rows_from_xml`, `iter_all_rows`) and the batch upsert loader
  (`load_to_postgres`, `UPSERT_SQL`).
* `src/enrich_with_region.py` — identifier normalizer (`normalize_inn`),
  batched lookup (`load_regions`, `SQL_LOOKUP`) and the CSV enrichment
  pipeline (`enrich_file` with its inner `flush`).

Modelling conventions:
* Python strings are Lean `String`s; `str.strip` / `str.isdigit` are
  modelled at ASCII fidelity (`pyStrip`, `Char.isDigit`).
* The Postgres table is an association list keyed by `inn`; the semantics
  of `UPSERT_SQL` (INSERT ... ON CONFLICT (inn) DO UPDATE) is the
  function `upsert`; `executemany` applies the statement row by row, i.e.
  a left fold (`applyAll`).
* A `csv.DictReader` row is an association list column-name to value in
  column order; Python dict construction from a sequence of pairs is the
  last-wins lookup `dictLookup`.
* One XML record element (`Документ`) is an `XmlDoc` holding the optional
  marker nodes with their optional identifier attributes.  A file is its
  list of completed record elements together with the position (if any)
  at which the incremental parse raises; the generator body of
  `iter_rows_from_xml` is wrapped in `try/except`, so records completed
  before the failure have already been yielded.
* Python generators are finite lists; all functions are total, matching
  the scripts' lack of raised exceptions on the modelled paths.
-/

/-! ## Python string primitives -/

/-- Whitespace characters removed by Python `str.strip()` (ASCII range). -/
def pyIsSpace (c : Char) : Bool :=
  c == ' ' || c == '\t' || c == '\n' || c == '\r' || c == '\x0b' || c == '\x0c'

/-- Python `str.strip()` on a character list: drop leading and trailing
whitespace. -/
def pyStripList (l : List Char) : List Char :=
  ((l.dropWhile pyIsSpace).reverse.dropWhile pyIsSpace).reverse

/-- Python `str.strip()`. -/
def pyStrip (s : String) : String :=
  (pyStripList s.toList).asString

/-- Embedding of `normalize_inn` (src/enrich_with_region.py, lines 47-52):
`"".join(ch for ch in (raw or "").strip() if ch.isdigit())` — keep only the
digit characters of the stripped input, preserving order and leading
zeros.  A Python `None` argument is modelled as the empty string. -/
def normalize_inn (raw : String) : String :=
  ((pyStripList raw.toList).filter Char.isDigit).asString

/-! ## Association-list utilities (Python dict built from pairs) -/

/-- Lookup in a Python dict built from a list of key/value pairs
(`{k: v for k, v in l}`): the last pair with the key wins. -/
def dictLookup (l : List (String × String)) (k : String) : Option String :=
  l.foldl (fun acc p => if p.1 = k then some p.2 else acc) none

/-- Python `row.get(k, "")` on a CSV row. -/
def rowGetD (row : List (String × String)) (k : String) : String :=
  (dictLookup row k).getD ""

/-- Python `row[k] = v` on a CSV row: the value stored under `k` is
replaced, all other entries and the column order are untouched. -/
def rowSet (row : List (String × String)) (k v : String) : List (String × String) :=
  row.map (fun p => if p.1 = k then (p.1, v) else p)

/-! ## Batch upsert loader (src/load_msp.py) -/

/-- One extraction tuple `(inn, inn_type, kodregion, source_file)` as
yielded by `iter_rows_from_xml`. -/
abbrev LoadTuple := String × String × String × String

/-- Stored row value: `(inn_type, kodregion, source_file)`. -/
abbrev MspRow := String × String × String

/-- The Postgres table `msp_inn_region`: rows keyed by the primary key
`inn`. -/
abbrev MspTable := List (String × MspRow)

/-- Semantics of `UPSERT_SQL` (src/load_msp.py, lines 50-59) for a single
parameter tuple: `INSERT ... ON CONFLICT (inn) DO UPDATE SET inn_type,
kodregion, source_file`.  On conflict the existing row is overwritten in
place; otherwise a new row is appended. -/
def upsert (tbl : MspTable) (t : LoadTuple) : MspTable :=
  if t.1 ∈ tbl.map Prod.fst then
    tbl.map (fun p => if p.1 = t.1 then (t.1, t.2) else p)
  else
    tbl ++ [(t.1, t.2)]

/-- `cur.executemany(UPSERT_SQL, buf)` applied across any sequence of
tuples: the statement runs once per tuple, in order. -/
def applyAll (tbl : MspTable) (ts : List LoadTuple) : MspTable :=
  ts.foldl upsert tbl

/-- Lookup of the stored row for an identifier (primary-key access). -/
def tableLookup (tbl : MspTable) (inn : String) : Option MspRow :=
  (tbl.find? (fun p => decide (p.1 = inn))).map Prod.snd

/-- Number of table rows carrying the given identifier. -/
def keyCount (tbl : MspTable) (inn : String) : Nat :=
  tbl.countP (fun p => decide (p.1 = inn))

/-- Primary-key invariant: identifiers are pairwise distinct. -/
def keysNodup (tbl : MspTable) : Prop :=
  (tbl.map Prod.fst).Nodup

/-- Value of the last tuple in a sequence carrying the identifier, if
any. -/
def lastWrite (ts : List LoadTuple) (inn : String) : Option MspRow :=
  (ts.reverse.find? (fun t => decide (t.1 = inn))).map Prod.snd

/-- One iteration of the accumulation loop of `load_to_postgres`
(src/load_msp.py, lines 159-167): append the record to `buf`; when
`len(buf) >= BATCH_SIZE`, flush the batch (count it and clear `buf`).
State is `(buf, total, flushed batches in order)`. -/
def loadStep (batchSize : Nat) (st : List LoadTuple × Nat × List (List LoadTuple))
    (r : LoadTuple) : List LoadTuple × Nat × List (List LoadTuple) :=
  let buf := st.1 ++ [r]
  if batchSize ≤ buf.length then ([], st.2.1 + buf.length, st.2.2 ++ [buf])
  else (buf, st.2.1, st.2.2)

/-- Final partial flush of `load_to_postgres` (src/load_msp.py, lines
169-172): `if buf: executemany; total += len(buf)`. -/
def loadFinish (st : List LoadTuple × Nat × List (List LoadTuple)) :
    Nat × List (List LoadTuple) :=
  if st.1.isEmpty then (st.2.1, st.2.2) else (st.2.1 + st.1.length, st.2.2 ++ [st.1])

/-- Embedding of the batching loop of `load_to_postgres`
(src/load_msp.py, lines 155-174): fold the record stream through
`loadStep`, then flush the partial final batch if non-empty.  Returns the
final `total` counter and the flushed batches in flush order. -/
def load_to_postgres (batchSize : Nat) (recs : List LoadTuple) :
    Nat × List (List LoadTuple) :=
  loadFinish (recs.foldl (loadStep batchSize) ([], 0, []))

/-! ## Streaming XML extractor (src/load_msp.py) -/

/-- One `Документ` record element.  Each field is the result of
`doc.find(...)` for the corresponding child node: `none` when the node is
absent, `some a` when it is present with `a` the optional value of its
identifier/region attribute (`ИННФЛ`, `ИННЮЛ`, `КодРегион`). -/
structure XmlDoc where
  ipVklMSP : Option (Option String)
  orgVklMSP : Option (Option String)
  svedMN : Option (Option String)

/-- Truthy attribute of a possibly absent node: Python
`node is not None and node.get(attr)` — `none` for an absent node, a
missing attribute, or an empty attribute value. -/
def attrVal : Option (Option String) → Option String
  | none => none
  | some none => none
  | some (some s) => if s = "" then none else some s

/-- Embedding of `extract_inn_and_type` (src/load_msp.py, lines 68-85):
prefer the individual-entrepreneur node `ИПВклМСП` with its `ИННФЛ`
attribute; otherwise fall back to the legal-entity node `ОргВклМСП` with
`ИННЮЛ`; the returned identifier is `inn.strip()`. -/
def extract_inn_and_type (d : XmlDoc) : Option String × Option String :=
  match attrVal d.ipVklMSP with
  | some inn => (some (pyStrip inn), some "IP")
  | none =>
    match attrVal d.orgVklMSP with
    | some inn => (some (pyStrip inn), some "UL")
    | none => (none, none)

/-- Region code of a record: `СведМН`'s `КодРегион` attribute, stripped,
when the node is present and the attribute truthy (src/load_msp.py,
lines 99-104). -/
def docRegion (d : XmlDoc) : Option String :=
  (attrVal d.svedMN).map pyStrip

/-- Emission decision for one record element (the loop body of
`iter_rows_from_xml`, src/load_msp.py, lines 97-107): yield
`(inn, inn_type, kodregion, file name)` iff identifier, type and region
are all truthy.  At most one tuple is yielded per record. -/
def docEmit (srcName : String) (d : XmlDoc) : Option LoadTuple :=
  match extract_inn_and_type d with
  | (some inn, some ty) =>
    match docRegion d with
    | some reg => if inn ≠ "" ∧ reg ≠ "" then some (inn, ty, reg, srcName) else none
    | none => none
  | _ => none

/-- One input XML file as seen by the incremental parser: `name` is the
file name, `docs` the record elements the parse completes in document
order, and `errPos` the number of record elements completed before the
parse raises (`none` when the whole file parses cleanly).  This models
`etree.iterparse`, which delivers each `Документ` as soon as it closes
and raises at the malformed position. -/
structure XmlFile where
  name : String
  docs : List XmlDoc
  errPos : Option Nat

/-- Record elements actually delivered by the parse: all of them for a
clean file, the pre-error prefix for a failing one. -/
def parsedDocs (f : XmlFile) : List XmlDoc :=
  match f.errPos with
  | none => f.docs
  | some p => f.docs.take p

/-- Embedding of the generator `iter_rows_from_xml` (src/load_msp.py,
lines 88-117): the `try` body yields one optional tuple per delivered
record; `except` turns a parse failure into a warning and ends the
generator, so the output is the emissions of the delivered records. -/
def iter_rows_from_xml (f : XmlFile) : List LoadTuple :=
  (parsedDocs f).filterMap (docEmit f.name)

/-- Whether `iter_rows_from_xml` printed a `[WARN]` line for the file. -/
def fileWarned (f : XmlFile) : Bool :=
  f.errPos.isSome

/-- Embedding of `iter_all_rows` (src/load_msp.py, lines 120-122): chain
the per-file generators over the (already sorted) directory listing. -/
def iter_all_rows (fs : List XmlFile) : List LoadTuple :=
  (fs.map iter_rows_from_xml).flatten

/-! ## Lookup enrichment pipeline (src/enrich_with_region.py) -/

/-- One CSV row as produced by `csv.DictReader`: column name to value, in
column order, one entry per header column. -/
abbrev Row := List (String × String)

/-- The store as seen by `SQL_LOOKUP`: `inn` to `kodregion`. -/
abbrev RegStore := List (String × String)

/-- Embedding of `load_regions` (src/enrich_with_region.py, lines 55-61)
together with `SQL_LOOKUP` (lines 40-44): the query returns the store
rows whose `inn` is in the batch (`WHERE inn = ANY(%s)`), and the dict
comprehension turns them into a mapping `inn -> kodregion`. -/
def load_regions (store : RegStore) (inns : List String) : String → Option String :=
  fun inn => dictLookup (store.filter (fun p => decide (p.1 ∈ inns))) inn

/-- Per-row body of `flush` (src/enrich_with_region.py, lines 100-107)
against an arbitrary lookup result `rmap`: recompute the normalized
identifier; if it is truthy and the row's `Регион` value strips to empty,
fill `Регион` with a truthy looked-up region; otherwise write the row
unchanged. -/
def enrichWith (rmap : String → Option String) (row : Row) : Row :=
  if normalize_inn (rowGetD row "ИНН") ≠ "" ∧ pyStrip (rowGetD row "Регион") = "" then
    match rmap (normalize_inn (rowGetD row "ИНН")) with
    | some reg => if reg ≠ "" then rowSet row "Регион" reg else row
    | none => row
  else row

/-- Net effect of the pipeline on one row: `enrichWith` under the full
store lookup. -/
def enrichRow (store : RegStore) (row : Row) : Row :=
  enrichWith (dictLookup store) row

/-- Embedding of `flush` (src/enrich_with_region.py, lines 93-113): look
up the whole batch of identifiers at once, then write each buffered row
(possibly filled) in buffer order. -/
def flushRows (store : RegStore) (binns : List String) (brows : List Row) : List Row :=
  brows.map (enrichWith (load_regions store binns))

/-- Normalized identifier of a row, as accumulated into `batch_inns`
(src/enrich_with_region.py, line 116). -/
def rowInn (row : Row) : String :=
  normalize_inn (rowGetD row "ИНН")

/-- One iteration of the reader loop of `enrich_file`
(src/enrich_with_region.py, lines 115-121): buffer the row and its
normalized identifier; flush when the buffer reaches `BATCH_SIZE`.
State is `(batch_inns, batch_rows, rows written so far)`. -/
def enrichStep (store : RegStore) (batchSize : Nat)
    (st : List String × List Row × List Row) (row : Row) :
    List String × List Row × List Row :=
  let binns := st.1 ++ [rowInn row]
  let brows := st.2.1 ++ [row]
  if batchSize ≤ binns.length then ([], [], st.2.2 ++ flushRows store binns brows)
  else (binns, brows, st.2.2)

/-- Embedding of the row-processing loop of `enrich_file`
(src/enrich_with_region.py, lines 89-123): fold the input rows through
`enrichStep`, then issue the final `flush()` (a no-op on an empty
buffer).  Returns the output rows in write order. -/
def enrich_file (store : RegStore) (batchSize : Nat) (rows : List Row) : List Row :=
  let st := rows.foldl (enrichStep store batchSize) ([], [], [])
  st.2.2 ++ flushRows store st.1 st.2.1

/-! ## CSV header handling (src/enrich_with_region.py, lines 76-87)

The header line is parsed by `csv.DictReader` (delimiter `;`, quote
character `"`, doubled quotes) into `fieldnames`, and written back by
`csv.DictWriter.writeheader`, which re-serializes the field list with
minimal quoting.  We embed the csv module's field-level state machine. -/

/-- Characters that force a field to be quoted on output
(`csv.QUOTE_MINIMAL`): the delimiter, the quote character, and the line
terminator characters. -/
def escapeNeeded (c : Char) : Bool :=
  c == ';' || c == '"' || c == '\n' || c == '\r'

/-- Whether `csv.DictWriter` quotes the field. -/
def needsQuoting (f : String) : Bool :=
  f.toList.any escapeNeeded

/-- Double every quote character (csv `doublequote=True` on output). -/
def doubleQuotes (l : List Char) : List Char :=
  (l.map (fun c => if c = '"' then ['"', '"'] else [c])).flatten

/-- Serialization of one field by `csv.DictWriter` with
`QUOTE_MINIMAL`. -/
def encodeField (f : String) : String :=
  if needsQuoting f then "\"" ++ (doubleQuotes f.toList).asString ++ "\"" else f

/-- Join fields with the `;` delimiter. -/
def joinSemi : List String → String
  | [] => ""
  | [f] => f
  | f :: g :: fs => f ++ ";" ++ joinSemi (g :: fs)

/-- Join character-list fields with the `;` delimiter. -/
def joinSemiL : List (List Char) → List Char
  | [] => []
  | [f] => f
  | f :: g :: fs => f ++ ';' :: joinSemiL (g :: fs)

/-- Field-splitting state machine of `csv.reader` for one line
(delimiter `;`, quote character `"`, `doublequote=True`, non-strict):
outside quotes a delimiter ends the field and a quote opens quoted mode
only at the start of a field; inside quotes a doubled quote is a literal
quote and a single quote closes quoted mode; all other characters are
taken literally. -/
def parseRecL : Bool → List Char → List Char → List (List Char)
  | _, cur, [] => [cur]
  | false, cur, c :: rest =>
    if c = ';' then cur :: parseRecL false [] rest
    else if c = '"' ∧ cur = [] then parseRecL true cur rest
    else parseRecL false (cur ++ [c]) rest
  | true, cur, '"' :: '"' :: rest => parseRecL true (cur ++ ['"']) rest
  | true, cur, '"' :: rest => parseRecL false cur rest
  | true, cur, c :: rest => parseRecL true (cur ++ [c]) rest

/-- Header fields as computed by `csv.DictReader.fieldnames` from the
input header line. -/
def parseHeaderFields (line : String) : List String :=
  (parseRecL false [] line.toList).map List.asString

/-- Header line as written by `csv.DictWriter.writeheader` for the given
field list. -/
def writeHeaderLine (fields : List String) : String :=
  joinSemi (fields.map encodeField)

/-- Header line written by `enrich_file` for an input file whose header
line is `headerLine` (src/enrich_with_region.py, lines 76-87): the parsed
field list, re-serialized. -/
def headerOut (headerLine : String) : String :=
  writeHeaderLine (parseHeaderFields headerLine)

/-- Field content that never triggers quoting and contains no structural
characters: such a field round-trips through the csv layer verbatim. -/
abbrev plainField (f : String) : Prop :=
  ∀ c ∈ f.toList, escapeNeeded c = false

/-- Raw identifier attribute text selected by `extract_inn_and_type`
before stripping: the truthy `ИННФЛ` of `ИПВклМСП` when available, else
the truthy `ИННЮЛ` of `ОргВклМСП`. -/
def rawExtracted (d : XmlDoc) : Option String :=
  match attrVal d.ipVklMSP with
  | some s => some s
  | none => attrVal d.orgVklMSP

/-! ## Helper lemmas -/

theorem pyIsSpace_not_digit {c : Char} (h : pyIsSpace c = true) : c.isDigit = false := by
  simp only [pyIsSpace, Bool.or_eq_true, beq_iff_eq] at h
  rcases h with ((((h | h) | h) | h) | h) | h <;> subst h <;> decide

theorem digit_not_pyIsSpace {c : Char} (h : c.isDigit = true) : pyIsSpace c = false := by
  cases hs : pyIsSpace c with
  | false => rfl
  | true => rw [pyIsSpace_not_digit hs] at h; cases h

theorem filter_dropWhile_of_disjoint {p q : Char → Bool}
    (hpq : ∀ c, q c = true → p c = false) :
    ∀ l : List Char, (l.dropWhile q).filter p = l.filter p := by
  intro l
  induction l with
  | nil => rfl
  | cons c l ih =>
    cases hq : q c with
    | true =>
      rw [List.dropWhile_cons_of_pos hq, ih, List.filter_cons_of_neg]
      simp [hpq c hq]
    | false => rw [List.dropWhile_cons_of_neg (by simp [hq])]

theorem filter_isDigit_pyStripList (l : List Char) :
    (pyStripList l).filter Char.isDigit = l.filter Char.isDigit := by
  unfold pyStripList
  rw [List.filter_reverse, filter_dropWhile_of_disjoint (fun c h => pyIsSpace_not_digit h),
    List.filter_reverse, List.reverse_reverse,
    filter_dropWhile_of_disjoint (fun c h => pyIsSpace_not_digit h)]

theorem dropWhile_eq_self_of_none {q : Char → Bool} {l : List Char}
    (h : ∀ c ∈ l, q c = false) : l.dropWhile q = l := by
  cases l with
  | nil => rfl
  | cons c l => exact List.dropWhile_cons_of_neg (by simp [h c (by simp)])

theorem pyStripList_eq_self_of_no_space {l : List Char}
    (h : ∀ c ∈ l, pyIsSpace c = false) : pyStripList l = l := by
  unfold pyStripList
  rw [dropWhile_eq_self_of_none h,
    dropWhile_eq_self_of_none (fun c hc => h c (List.mem_reverse.mp hc)),
    List.reverse_reverse]

theorem normalize_inn_eq_filter (s : String) :
    normalize_inn s = (s.toList.filter Char.isDigit).asString := by
  unfold normalize_inn
  rw [filter_isDigit_pyStripList]

theorem normalize_inn_of_digits {l : List Char} (h : ∀ c ∈ l, c.isDigit = true) :
    normalize_inn l.asString = l.asString := by
  unfold normalize_inn
  have htl : (l.asString).toList = l := rfl
  rw [htl, pyStripList_eq_self_of_no_space (fun c hc => digit_not_pyIsSpace (h c hc)),
    List.filter_eq_self.mpr h]

theorem dictLookup_append (l : List (String × String)) (p : String × String) (k : String) :
    dictLookup (l ++ [p]) k = if p.1 = k then some p.2 else dictLookup l k := by
  unfold dictLookup
  rw [List.foldl_append]
  rfl

theorem dictLookup_some_mem {l : List (String × String)} {k v : String}
    (h : dictLookup l k = some v) : (k, v) ∈ l := by
  induction l using List.reverseRecOn with
  | nil => simp [dictLookup] at h
  | append_singleton l p ih =>
    rw [dictLookup_append] at h
    by_cases hp : p.1 = k
    · rw [if_pos hp] at h
      injection h with h
      subst hp
      subst h
      simp
    · rw [if_neg hp] at h
      exact List.mem_append_left _ (ih h)

theorem rowSet_append (row : List (String × String)) (p : String × String) (k v : String) :
    rowSet (row ++ [p]) k v = rowSet row k v ++ [if p.1 = k then (p.1, v) else p] := by
  simp [rowSet]

theorem dictLookup_rowSet_self {row : List (String × String)} {k w : String} (v : String)
    (h : dictLookup row k = some w) : dictLookup (rowSet row k v) k = some v := by
  induction row using List.reverseRecOn with
  | nil => simp [dictLookup] at h
  | append_singleton row p ih =>
    rw [dictLookup_append] at h
    rw [rowSet_append, dictLookup_append]
    by_cases hp : p.1 = k
    · simp [hp]
    · rw [if_neg hp] at h
      simp [hp]
      exact ih h

theorem dictLookup_rowSet_ne {row : List (String × String)} {k key v : String}
    (hk : k ≠ key) : dictLookup (rowSet row key v) k = dictLookup row k := by
  induction row using List.reverseRecOn with
  | nil => rfl
  | append_singleton row p ih =>
    rw [rowSet_append, dictLookup_append, dictLookup_append]
    by_cases hp : p.1 = key
    · simp only [hp, ite_true]
      have hkey : ¬ ((key : String) = k) := fun h => hk h.symm
      simp only [hp, hkey, ite_false]
      exact ih
    · simp only [hp, ite_false]
      by_cases hpk : p.1 = k
      · simp [hpk]
      · simp only [hpk, ite_false]
        exact ih

theorem rowSet_keys (row : List (String × String)) (k v : String) :
    (rowSet row k v).map Prod.fst = row.map Prod.fst := by
  unfold rowSet
  rw [List.map_map]
  apply List.map_congr_left
  intro p _
  by_cases hp : p.1 = k
  · simp [hp]
  · simp [hp]

theorem foldl_dictstep_filter (k : String) (q : String × String → Bool)
    (hq : ∀ p : String × String, p.1 = k → q p = true) :
    ∀ (l : List (String × String)) (acc : Option String),
      (l.filter q).foldl (fun acc p => if p.1 = k then some p.2 else acc) acc =
        l.foldl (fun acc p => if p.1 = k then some p.2 else acc) acc := by
  intro l
  induction l with
  | nil => intro acc; rfl
  | cons p l ih =>
    intro acc
    cases hqp : q p with
    | true =>
      rw [List.filter_cons_of_pos hqp]
      exact ih _
    | false =>
      rw [List.filter_cons_of_neg (by simp [hqp])]
      have hpk : ¬ p.1 = k := fun h => by rw [hq p h] at hqp; cases hqp
      simp only [List.foldl_cons, if_neg hpk]
      exact ih _

theorem dictLookup_filter_mem {inns : List String} {k : String} (store : List (String × String))
    (hk : k ∈ inns) :
    dictLookup (store.filter (fun p => decide (p.1 ∈ inns))) k = dictLookup store k := by
  unfold dictLookup
  exact foldl_dictstep_filter k _ (fun p hp => by rw [hp]; exact decide_eq_true hk) store none

theorem upsert_keys (tbl : MspTable) (t : LoadTuple) :
    (upsert tbl t).map Prod.fst =
      if t.1 ∈ tbl.map Prod.fst then tbl.map Prod.fst else tbl.map Prod.fst ++ [t.1] := by
  unfold upsert
  by_cases hm : t.1 ∈ tbl.map Prod.fst
  · rw [if_pos hm, if_pos hm, List.map_map]
    apply List.map_congr_left
    intro p _
    by_cases hp : p.1 = t.1
    · simp [hp]
    · simp [hp]
  · rw [if_neg hm, if_neg hm, List.map_append]
    rfl

theorem upsert_mem_key (tbl : MspTable) (t : LoadTuple) :
    t.1 ∈ (upsert tbl t).map Prod.fst := by
  rw [upsert_keys]
  by_cases hm : t.1 ∈ tbl.map Prod.fst
  · rw [if_pos hm]; exact hm
  · rw [if_neg hm]; simp

theorem upsert_keysNodup {tbl : MspTable} (t : LoadTuple) (h : keysNodup tbl) :
    keysNodup (upsert tbl t) := by
  unfold keysNodup at *
  rw [upsert_keys]
  by_cases hm : t.1 ∈ tbl.map Prod.fst
  · rw [if_pos hm]; exact h
  · rw [if_neg hm]
    refine h.append (List.nodup_singleton _) ?_
    intro a ha hb
    simp only [List.mem_singleton] at hb
    subst hb
    exact hm ha

theorem find?_update_self (t : LoadTuple) :
    ∀ tbl : MspTable, t.1 ∈ tbl.map Prod.fst →
      (tbl.map (fun p => if p.1 = t.1 then (t.1, t.2) else p)).find?
        (fun p => decide (p.1 = t.1)) = some (t.1, t.2) := by
  intro tbl
  induction tbl with
  | nil => intro h; simp at h
  | cons q tbl ih =>
    intro h
    rw [List.map_cons]
    by_cases hq : q.1 = t.1
    · rw [if_pos hq]
      exact List.find?_cons_of_pos _ (by simp)
    · rw [if_neg hq]
      rw [List.find?_cons_of_neg _ (by simp [hq])]
      apply ih
      simp only [List.map_cons, List.mem_cons] at h
      rcases h with h | h
      · exact absurd h.symm hq
      · exact h

theorem find?_update_ne (t : LoadTuple) {inn : String} (hne : inn ≠ t.1) :
    ∀ tbl : MspTable,
      (tbl.map (fun p => if p.1 = t.1 then (t.1, t.2) else p)).find?
        (fun p => decide (p.1 = inn)) = tbl.find? (fun p => decide (p.1 = inn)) := by
  intro tbl
  induction tbl with
  | nil => rfl
  | cons q tbl ih =>
    rw [List.map_cons]
    by_cases hq : q.1 = t.1
    · rw [if_pos hq]
      have h1 : ¬ ((fun p : String × MspRow => decide (p.1 = inn)) (t.1, t.2) = true) := by
        simp only [decide_eq_true_eq]
        exact fun h => hne h.symm
      have h2 : ¬ ((fun p : String × MspRow => decide (p.1 = inn)) q = true) := by
        simp only [decide_eq_true_eq]
        rw [hq]
        exact fun h => hne h.symm
      rw [@List.find?_cons_of_neg (String × MspRow) (fun p => decide (p.1 = inn)) (t.1, t.2) _ h1,
        @List.find?_cons_of_neg (String × MspRow) (fun p => decide (p.1 = inn)) q _ h2]
      exact ih
    · rw [if_neg hq]
      by_cases hqi : q.1 = inn
      · rw [List.find?_cons_of_pos _ (by simp [hqi]), List.find?_cons_of_pos _ (by simp [hqi])]
      · rw [List.find?_cons_of_neg _ (by simp [hqi]), List.find?_cons_of_neg _ (by simp [hqi])]
        exact ih

theorem tableLookup_upsert (tbl : MspTable) (t : LoadTuple) (inn : String) :
    tableLookup (upsert tbl t) inn =
      if inn = t.1 then some t.2 else tableLookup tbl inn := by
  by_cases hi : inn = t.1
  · rw [if_pos hi]
    subst hi
    unfold upsert
    by_cases hm : t.1 ∈ tbl.map Prod.fst
    · rw [if_pos hm]
      unfold tableLookup
      rw [find?_update_self t tbl hm]
      rfl
    · rw [if_neg hm]
      unfold tableLookup
      rw [List.find?_append]
      have h1 : tbl.find? (fun p => decide (p.1 = t.1)) = none := by
        rw [List.find?_eq_none]
        intro x hx
        simp only [decide_eq_true_eq]
        intro hxi
        exact hm (hxi ▸ List.mem_map_of_mem Prod.fst hx)
      rw [h1]
      simp
  · rw [if_neg hi]
    unfold upsert
    by_cases hm : t.1 ∈ tbl.map Prod.fst
    · rw [if_pos hm]
      unfold tableLookup
      rw [find?_update_ne t hi tbl]
    · rw [if_neg hm]
      unfold tableLookup
      rw [List.find?_append]
      have h2 : [(t.1, t.2)].find? (fun p => decide (p.1 = inn)) = none := by
        rw [List.find?_eq_none]
        intro x hx
        simp only [List.mem_singleton] at hx
        subst hx
        simp only [decide_eq_true_eq]
        exact fun h => hi h.symm
      rw [h2]
      cases tbl.find? (fun p => decide (p.1 = inn)) <;> rfl

theorem keyCount_le_one {tbl : MspTable} (inn : String) (h : keysNodup tbl) :
    keyCount tbl inn ≤ 1 := by
  induction tbl with
  | nil => simp [keyCount]
  | cons q tbl ih =>
    unfold keysNodup at h
    rw [List.map_cons, List.nodup_cons] at h
    unfold keyCount at *
    rw [List.countP_cons]
    by_cases hq : q.1 = inn
    · have hz : tbl.countP (fun p => decide (p.1 = inn)) = 0 := by
        rw [List.countP_eq_zero]
        intro x hx
        simp only [decide_eq_true_eq]
        intro hxi
        exact h.1 (by rw [← hq] at hxi; exact hxi ▸ List.mem_map_of_mem Prod.fst hx)
      rw [hz]
      simp [hq]
    · simpa [hq] using ih h.2

theorem keyCount_pos_of_lookup {tbl : MspTable} {inn : String} {r : MspRow}
    (h : tableLookup tbl inn = some r) : 0 < keyCount tbl inn := by
  unfold tableLookup at h
  cases hf : tbl.find? (fun p => decide (p.1 = inn)) with
  | none => rw [hf] at h; cases h
  | some a =>
    have hmem := List.mem_of_find?_eq_some hf
    have hpa := List.find?_some hf
    unfold keyCount
    rw [List.countP_pos_iff]
    exact ⟨a, hmem, hpa⟩

theorem applyAll_append (tbl : MspTable) (ts₁ ts₂ : List LoadTuple) :
    applyAll tbl (ts₁ ++ ts₂) = applyAll (applyAll tbl ts₁) ts₂ :=
  List.foldl_append _ _ _ _

theorem applyAll_keysNodup {tbl : MspTable} (ts : List LoadTuple) (h : keysNodup tbl) :
    keysNodup (applyAll tbl ts) := by
  induction ts generalizing tbl with
  | nil => exact h
  | cons t ts ih => exact ih (upsert_keysNodup t h)

theorem tableLookup_applyAll_not_mem {tbl : MspTable} {ts : List LoadTuple} {inn : String}
    (h : ∀ t ∈ ts, t.1 ≠ inn) :
    tableLookup (applyAll tbl ts) inn = tableLookup tbl inn := by
  induction ts generalizing tbl with
  | nil => rfl
  | cons t ts ih =>
    have : applyAll tbl (t :: ts) = applyAll (upsert tbl t) ts := rfl
    rw [this, ih (fun x hx => h x (List.mem_cons_of_mem _ hx)), tableLookup_upsert,
      if_neg (fun hh => h t (List.mem_cons_self _ _) hh.symm)]

theorem lastWrite_applyAll {ts : List LoadTuple} {inn : String} {r : MspRow}
    (tbl : MspTable) (h : lastWrite ts inn = some r) :
    tableLookup (applyAll tbl ts) inn = some r := by
  induction ts using List.reverseRecOn with
  | nil => simp [lastWrite] at h
  | append_singleton ts t ih =>
    unfold lastWrite at h
    rw [List.reverse_append] at h
    simp only [List.reverse_singleton, List.singleton_append] at h
    rw [applyAll_append]
    have hsingle : applyAll (applyAll tbl ts) [t] = upsert (applyAll tbl ts) t := rfl
    rw [hsingle, tableLookup_upsert]
    by_cases ht : t.1 = inn
    · rw [List.find?_cons_of_pos _ (by simp [ht])] at h
      simp only [Option.map_some'] at h
      rw [if_pos ht.symm]
      exact h
    · rw [List.find?_cons_of_neg _ (by simp [ht])] at h
      rw [if_neg (fun hh => ht hh.symm)]
      exact ih h

theorem mem_upsert_key_eq {tbl : MspTable} {t : LoadTuple} {p : String × MspRow}
    (hp : p ∈ upsert tbl t) (hk : p.1 = t.1) : p = (t.1, t.2) := by
  unfold upsert at hp
  by_cases hm : t.1 ∈ tbl.map Prod.fst
  · rw [if_pos hm] at hp
    rcases List.mem_map.mp hp with ⟨q, _, hq⟩
    by_cases hq1 : q.1 = t.1
    · rw [if_pos hq1] at hq; exact hq.symm
    · rw [if_neg hq1] at hq
      subst hq
      exact absurd hk hq1
  · rw [if_neg hm] at hp
    rcases List.mem_append.mp hp with hp | hp
    · exact absurd (hk ▸ List.mem_map_of_mem Prod.fst hp) hm
    · simpa using hp

theorem upsert_of_mem (tbl : MspTable) (t : LoadTuple) (hm : t.1 ∈ tbl.map Prod.fst) :
    upsert tbl t = tbl.map (fun p => if p.1 = t.1 then (t.1, t.2) else p) := by
  unfold upsert
  rw [if_pos hm]

theorem upsert_idem (tbl : MspTable) (t : LoadTuple) :
    upsert (upsert tbl t) t = upsert tbl t := by
  rw [upsert_of_mem _ _ (upsert_mem_key tbl t)]
  have hcg : ∀ p ∈ upsert tbl t, (if p.1 = t.1 then (t.1, t.2) else p) = id p := by
    intro p hp
    by_cases hq : p.1 = t.1
    · rw [if_pos hq, mem_upsert_key_eq hp hq]; rfl
    · rw [if_neg hq]; rfl
  rw [List.map_congr_left hcg, List.map_id]

theorem load_loop_inv (batchSize : Nat) :
    ∀ (recs buf : List LoadTuple) (total : Nat) (batches : List (List LoadTuple)),
      (recs.foldl (loadStep batchSize) (buf, total, batches)).2.1 +
          (recs.foldl (loadStep batchSize) (buf, total, batches)).1.length =
        total + buf.length + recs.length ∧
      (recs.foldl (loadStep batchSize) (buf, total, batches)).2.2.flatten ++
          (recs.foldl (loadStep batchSize) (buf, total, batches)).1 =
        batches.flatten ++ buf ++ recs := by
  intro recs
  induction recs with
  | nil =>
    intro buf total batches
    exact ⟨by simp, by simp⟩
  | cons r recs ih =>
    intro buf total batches
    rw [List.foldl_cons]
    by_cases hb : batchSize ≤ (buf ++ [r]).length
    · have hstep : loadStep batchSize (buf, total, batches) r =
          ([], total + (buf ++ [r]).length, batches ++ [buf ++ [r]]) := by
        simp only [loadStep]
        rw [if_pos hb]
      rw [hstep]
      obtain ⟨ih1, ih2⟩ := ih [] (total + (buf ++ [r]).length) (batches ++ [buf ++ [r]])
      constructor
      · rw [ih1]
        simp only [List.length_append, List.length_singleton, List.length_nil,
          List.length_cons]
        omega
      · rw [ih2]
        simp [List.flatten_append, List.append_assoc]
    · have hstep : loadStep batchSize (buf, total, batches) r =
          (buf ++ [r], total, batches) := by
        simp only [loadStep]
        rw [if_neg hb]
      rw [hstep]
      obtain ⟨ih1, ih2⟩ := ih (buf ++ [r]) total batches
      constructor
      · rw [ih1]
        simp only [List.length_append, List.length_singleton, List.length_nil,
          List.length_cons]
        omega
      · rw [ih2]
        simp [List.append_assoc]

theorem foldl_applyAll_flatten (bs : List (List LoadTuple)) :
    ∀ tbl : MspTable, bs.foldl applyAll tbl = applyAll tbl bs.flatten := by
  induction bs with
  | nil => intro tbl; rfl
  | cons b bs ih =>
    intro tbl
    rw [List.foldl_cons, ih, List.flatten_cons, applyAll_append]

theorem enrichWith_congr {rmap₁ rmap₂ : String → Option String} (row : Row)
    (h : rmap₁ (rowInn row) = rmap₂ (rowInn row)) :
    enrichWith rmap₁ row = enrichWith rmap₂ row := by
  unfold rowInn at h
  unfold enrichWith
  rw [h]

theorem flushRows_map (store : RegStore) (brows : List Row) :
    flushRows store (brows.map rowInn) brows = brows.map (enrichRow store) := by
  unfold flushRows enrichRow
  apply List.map_congr_left
  intro row hrow
  apply enrichWith_congr
  unfold load_regions
  exact dictLookup_filter_mem store (List.mem_map_of_mem rowInn hrow)

theorem enrich_loop_inv (store : RegStore) (batchSize : Nat) :
    ∀ (rows brows out : List Row),
      (rows.foldl (enrichStep store batchSize) (brows.map rowInn, brows, out)).2.2 ++
          flushRows store
            (rows.foldl (enrichStep store batchSize) (brows.map rowInn, brows, out)).1
            (rows.foldl (enrichStep store batchSize) (brows.map rowInn, brows, out)).2.1 =
        out ++ (brows ++ rows).map (enrichRow store) := by
  intro rows
  induction rows with
  | nil =>
    intro brows out
    simp only [List.foldl_nil]
    rw [flushRows_map]
    simp
  | cons row rows ih =>
    intro brows out
    rw [List.foldl_cons]
    have hmapped : brows.map rowInn ++ [rowInn row] = (brows ++ [row]).map rowInn := by
      rw [List.map_append, List.map_singleton]
    by_cases hb : batchSize ≤ (brows.map rowInn ++ [rowInn row]).length
    · have hstep : enrichStep store batchSize (brows.map rowInn, brows, out) row =
          ([], [], out ++ flushRows store ((brows ++ [row]).map rowInn) (brows ++ [row])) := by
        simp only [enrichStep]
        rw [if_pos hb, hmapped]
      rw [hstep]
      have hih := ih [] (out ++ flushRows store ((brows ++ [row]).map rowInn) (brows ++ [row]))
      simp only [List.map_nil, List.nil_append] at hih
      rw [hih, flushRows_map]
      simp [List.map_append, List.append_assoc]
    · have hstep : enrichStep store batchSize (brows.map rowInn, brows, out) row =
          ((brows ++ [row]).map rowInn, brows ++ [row], out) := by
        simp only [enrichStep]
        rw [if_neg hb, hmapped]
      rw [hstep]
      rw [ih (brows ++ [row]) out]
      simp [List.append_assoc]

theorem enrich_file_eq_map (store : RegStore) (batchSize : Nat) (rows : List Row) :
    enrich_file store batchSize rows = rows.map (enrichRow store) := by
  have h := enrich_loop_inv store batchSize rows [] []
  simp only [List.map_nil, List.nil_append] at h
  unfold enrich_file
  exact h

theorem toList_append (a b : String) : (a ++ b).toList = a.toList ++ b.toList :=
  String.data_append a b

theorem asString_toList (s : String) : s.toList.asString = s := by
  cases s
  rfl

theorem parse_plain_chunk {f : List Char} (hf : ∀ c ∈ f, escapeNeeded c = false) :
    ∀ (cur rest : List Char), parseRecL false cur (f ++ rest) = parseRecL false (cur ++ f) rest := by
  induction f with
  | nil =>
    intro cur rest
    simp
  | cons c f ihf =>
    intro cur rest
    have hc := hf c (List.mem_cons_self _ _)
    have hc1 : ¬ (c = ';') := by
      intro h
      subst h
      simp [escapeNeeded] at hc
    have hc2 : ¬ (c = '"' ∧ cur = []) := by
      intro h
      rw [h.1] at hc
      simp [escapeNeeded] at hc
    rw [List.cons_append]
    show parseRecL false cur (c :: (f ++ rest)) = _
    simp only [parseRecL]
    rw [if_neg hc1, if_neg hc2]
    rw [ihf (fun x hx => hf x (List.mem_cons_of_mem _ hx)) (cur ++ [c]) rest,
      List.append_assoc]
    rfl

theorem parse_joinSemiL :
    ∀ fs : List (List Char), fs ≠ [] → (∀ f ∈ fs, ∀ c ∈ f, escapeNeeded c = false) →
      parseRecL false [] (joinSemiL fs) = fs := by
  intro fs
  induction fs with
  | nil => intro h _; exact absurd rfl h
  | cons f fs ih =>
    intro _ hp
    cases fs with
    | nil =>
      have hj : joinSemiL [f] = f := rfl
      rw [hj]
      have h2 := parse_plain_chunk (hp f (by simp)) [] []
      simp only [List.append_nil, List.nil_append] at h2
      rw [h2]
      rfl
    | cons g fs' =>
      have hj : joinSemiL (f :: g :: fs') = f ++ ';' :: joinSemiL (g :: fs') := rfl
      rw [hj]
      have h2 := parse_plain_chunk (hp f (by simp)) [] (';' :: joinSemiL (g :: fs'))
      simp only [List.nil_append] at h2
      rw [h2]
      have h3 : parseRecL false f (';' :: joinSemiL (g :: fs')) =
          f :: parseRecL false [] (joinSemiL (g :: fs')) := by
        simp [parseRecL]
      rw [h3, ih (by simp) (fun x hx => hp x (List.mem_cons_of_mem _ hx))]

theorem encodeField_plain {f : String} (h : plainField f) : encodeField f = f := by
  have hnq : ¬ (needsQuoting f = true) := by
    intro hq
    unfold needsQuoting at hq
    rw [List.any_eq_true] at hq
    obtain ⟨c, hc, he⟩ := hq
    rw [h c hc] at he
    cases he
  unfold encodeField
  rw [if_neg hnq]

theorem toList_joinSemi :
    ∀ fs : List String, (joinSemi fs).toList = joinSemiL (fs.map String.toList) := by
  intro fs
  induction fs with
  | nil => rfl
  | cons f fs ih =>
    cases fs with
    | nil => rfl
    | cons g fs' =>
      have hj : joinSemi (f :: g :: fs') = f ++ ";" ++ joinSemi (g :: fs') := rfl
      have hjL : joinSemiL ((f :: g :: fs').map String.toList) =
          f.toList ++ ';' :: joinSemiL ((g :: fs').map String.toList) := rfl
      rw [hj, hjL, toList_append, toList_append, ih, List.append_assoc]
      rfl

theorem parseHeaderFields_joinSemi {fields : List String} (hne : fields ≠ [])
    (hp : ∀ f ∈ fields, plainField f) :
    parseHeaderFields (joinSemi fields) = fields := by
  unfold parseHeaderFields
  rw [toList_joinSemi]
  rw [parse_joinSemiL (fields.map String.toList)
    (by simpa using hne)
    (by
      intro f hf c hc
      obtain ⟨g, hg, hfg⟩ := List.mem_map.mp hf
      subst hfg
      exact hp g hg c hc)]
  rw [List.map_map]
  have : ∀ g ∈ fields, (List.asString ∘ String.toList) g = id g := by
    intro g _
    simp only [Function.comp_apply, id_eq]
    exact asString_toList g
  rw [List.map_congr_left this, List.map_id]

theorem pyStrip_eq_normalize_of_digits {raw : String}
    (h : (pyStrip raw).toList.all Char.isDigit = true) : pyStrip raw = normalize_inn raw := by
  have hall : ∀ a ∈ pyStripList raw.toList, Char.isDigit a = true := by
    intro a ha
    have h' : (pyStripList raw.toList).all Char.isDigit = true := h
    exact List.all_eq_true.mp h' a ha
  unfold pyStrip normalize_inn
  rw [List.filter_eq_self.mpr hall]

/-! ## Claim theorems -/

/-- C1: the upsert operation is convergent and keyed.  Starting from any
table satisfying the primary-key invariant: the invariant is preserved by
any sequence of upserts; no identifier ever has two rows; the stored row
for an identifier equals the last applied tuple carrying it; re-applying
the same tuple is idempotent; after applying a tuple twice in a row (in
whatever bigger history), exactly one row for its identifier remains,
carrying its type/region/source values; and applying further tuples later
(another batch or another run) composes with the earlier history. -/
theorem c1_upsert_convergent (tbl : MspTable) (ts : List LoadTuple) (h : keysNodup tbl) :
    keysNodup (applyAll tbl ts) ∧
    (∀ inn, keyCount (applyAll tbl ts) inn ≤ 1) ∧
    (∀ inn r, lastWrite ts inn = some r → tableLookup (applyAll tbl ts) inn = some r) ∧
    (∀ t, upsert (upsert tbl t) t = upsert tbl t) ∧
    (∀ t : LoadTuple, applyAll tbl (ts ++ [t, t]) = applyAll tbl (ts ++ [t]) ∧
      tableLookup (applyAll tbl (ts ++ [t, t])) t.1 = some t.2 ∧
      keyCount (applyAll tbl (ts ++ [t, t])) t.1 = 1) ∧
    (∀ ts₂, applyAll (applyAll tbl ts) ts₂ = applyAll tbl (ts ++ ts₂)) := by
  refine ⟨applyAll_keysNodup ts h, ?_, ?_, ?_, ?_, ?_⟩
  · intro inn
    exact keyCount_le_one inn (applyAll_keysNodup ts h)
  · intro inn r hw
    exact lastWrite_applyAll tbl hw
  · intro t
    exact upsert_idem tbl t
  · intro t
    have hw : lastWrite (ts ++ [t, t]) t.1 = some t.2 := by
      unfold lastWrite
      have hrev : (ts ++ [t, t]).reverse = t :: t :: ts.reverse := by
        rw [List.reverse_append]
        rfl
      rw [hrev, List.find?_cons_of_pos _ (by simp)]
      rfl
    have hlook : tableLookup (applyAll tbl (ts ++ [t, t])) t.1 = some t.2 :=
      lastWrite_applyAll tbl hw
    refine ⟨?_, hlook, ?_⟩
    · have e1 : ts ++ [t, t] = (ts ++ [t]) ++ [t] := by simp
      rw [e1, applyAll_append]
      have e2 : applyAll (applyAll tbl (ts ++ [t])) [t] =
          upsert (applyAll tbl (ts ++ [t])) t := rfl
      rw [e2, applyAll_append]
      have e3 : applyAll (applyAll tbl ts) [t] = upsert (applyAll tbl ts) t := rfl
      rw [e3, upsert_idem]
    · have hle := keyCount_le_one t.1 (applyAll_keysNodup (ts ++ [t, t]) h)
      have hpos := keyCount_pos_of_lookup hlook
      omega
  · intro ts₂
    exact (applyAll_append tbl ts ts₂).symm

/-- Witness for C1: two upserts of the same identifier leave one row with
the later values. -/
theorem c1_upsert_convergent_witness :
    tableLookup (applyAll ([] : MspTable)
        [("7701234567", "IP", "77", "a.xml"), ("7701234567", "UL", "50", "b.xml")])
      "7701234567" = some ("UL", "50", "b.xml") ∧
    keyCount (applyAll ([] : MspTable)
        [("7701234567", "IP", "77", "a.xml"), ("7701234567", "UL", "50", "b.xml")])
      "7701234567" ≤ 1 := by
  have h := c1_upsert_convergent []
    [("7701234567", "IP", "77", "a.xml"), ("7701234567", "UL", "50", "b.xml")]
    (by simp [keysNodup])
  exact ⟨h.2.2.1 "7701234567" ("UL", "50", "b.xml") (by decide), h.2.1 "7701234567"⟩

/-- C5: batch-boundary integrity of the loader.  For every record
sequence and positive batch size, the final `total` equals the number of
records, the flushed batches concatenate to exactly the input sequence
(no record dropped or duplicated, partial final batch included), and
applying the flushed batches to any table equals applying the records
directly. -/
theorem c5_batch_boundary_integrity (batchSize : Nat) (recs : List LoadTuple)
    (h : 0 < batchSize) :
    (load_to_postgres batchSize recs).1 = recs.length ∧
    (load_to_postgres batchSize recs).2.flatten = recs ∧
    (∀ tbl : MspTable,
      (load_to_postgres batchSize recs).2.foldl applyAll tbl = applyAll tbl recs) := by
  obtain ⟨inv1, inv2⟩ := load_loop_inv batchSize recs [] 0 []
  simp only [List.length_nil, List.flatten_nil, List.nil_append, List.append_nil,
    Nat.add_zero, Nat.zero_add] at inv1 inv2
  unfold load_to_postgres loadFinish
  by_cases hbuf : (recs.foldl (loadStep batchSize) ([], 0, [])).1.isEmpty = true
  · rw [if_pos hbuf]
    have hempty : (recs.foldl (loadStep batchSize) ([], 0, [])).1 = [] :=
      List.isEmpty_iff.mp hbuf
    rw [hempty] at inv1 inv2
    simp only [List.length_nil, List.append_nil, Nat.add_zero] at inv1 inv2
    refine ⟨inv1, inv2, ?_⟩
    intro tbl
    rw [foldl_applyAll_flatten, inv2]
  · rw [if_neg hbuf]
    have hflat : ((recs.foldl (loadStep batchSize) ([], 0, [])).2.2 ++
        [(recs.foldl (loadStep batchSize) ([], 0, [])).1]).flatten = recs := by
      rw [List.flatten_append]
      simp only [List.flatten_cons, List.flatten_nil, List.append_nil]
      exact inv2
    refine ⟨inv1, hflat, ?_⟩
    intro tbl
    rw [foldl_applyAll_flatten, hflat]

/-- Witness for C5: three records with batch size two — one full batch,
one partial final batch, total three. -/
theorem c5_batch_boundary_integrity_witness :
    (load_to_postgres 2
        [("1", "IP", "77", "a"), ("2", "UL", "50", "a"), ("3", "IP", "23", "b")]).1 = 3 ∧
    (load_to_postgres 2
        [("1", "IP", "77", "a"), ("2", "UL", "50", "a"), ("3", "IP", "23", "b")]).2.flatten =
      [("1", "IP", "77", "a"), ("2", "UL", "50", "a"), ("3", "IP", "23", "b")] ∧
    (load_to_postgres 2
        [("1", "IP", "77", "a"), ("2", "UL", "50", "a"), ("3", "IP", "23", "b")]).2.foldl
      applyAll [] =
      applyAll [] [("1", "IP", "77", "a"), ("2", "UL", "50", "a"), ("3", "IP", "23", "b")] := by
  have h := c5_batch_boundary_integrity 2
    [("1", "IP", "77", "a"), ("2", "UL", "50", "a"), ("3", "IP", "23", "b")] (by decide)
  exact ⟨h.1.trans (by decide), h.2.1, h.2.2 []⟩

/-- C6: row-order preservation of the enrichment pipeline.  For every
store, positive batch size and input row sequence, the pipeline writes
exactly the per-row enrichment of each input row, in input order — one
output row per input row, no reordering across batch boundaries. -/
theorem c6_row_order_preservation (store : RegStore) (batchSize : Nat) (rows : List Row)
    (h : 0 < batchSize) :
    enrich_file store batchSize rows = rows.map (enrichRow store) ∧
    (enrich_file store batchSize rows).length = rows.length := by
  refine ⟨enrich_file_eq_map store batchSize rows, ?_⟩
  rw [enrich_file_eq_map store batchSize rows, List.length_map]

/-- Witness for C6: interleaved matching and non-matching identifiers,
batch size two against three rows (full batch plus final partial). -/
theorem c6_row_order_preservation_witness :
    enrich_file [("111", "77")] 2
        [[("ИНН", "111"), ("Регион", "")], [("ИНН", "222"), ("Регион", "")],
          [("ИНН", "111"), ("Регион", "")]] =
      [[("ИНН", "111"), ("Регион", "77")], [("ИНН", "222"), ("Регион", "")],
        [("ИНН", "111"), ("Регион", "77")]] := by
  have h := c6_row_order_preservation [("111", "77")] 2
    [[("ИНН", "111"), ("Регион", "")], [("ИНН", "222"), ("Регион", "")],
      [("ИНН", "111"), ("Регион", "")]] (by decide)
  exact h.1.trans (by decide)

/-- C8: the normalizer returns exactly the digit characters of its input
in order (stripping changes nothing, so leading zeros survive); it
returns the empty string when the input has no digit; it is idempotent;
and normalizing " 12-34 " yields "1234".  It is a total Lean function,
matching the exception-free Python source. -/
theorem c8_normalizer_contract (s : String) :
    normalize_inn s = (s.toList.filter Char.isDigit).asString ∧
    ((∀ c ∈ s.toList, c.isDigit = false) → normalize_inn s = "") ∧
    normalize_inn (normalize_inn s) = normalize_inn s ∧
    normalize_inn " 12-34 " = "1234" := by
  refine ⟨normalize_inn_eq_filter s, ?_, ?_, by decide⟩
  · intro hnone
    rw [normalize_inn_eq_filter s]
    have hnil : s.toList.filter Char.isDigit = [] := by
      rw [List.filter_eq_nil_iff]
      intro a ha
      simp [hnone a ha]
    rw [hnil]
    rfl
  · rw [normalize_inn_eq_filter s]
    exact normalize_inn_of_digits (fun c hc => List.of_mem_filter hc)

/-- Witness for C8: a digit-free input normalizes to the empty string. -/
theorem c8_normalizer_contract_witness : normalize_inn "ab" = "" :=
  (c8_normalizer_contract "ab").2.1 (by decide)

/-- C2 counterexample: the extractor emits the stripped raw attribute,
not its normalized form — a record whose `ИННФЛ` attribute is `12-34`
yields the identifier `12-34`, which differs from the normalizer's
output `1234` and contains a non-digit character. -/
theorem c2_identifier_not_normalized :
    docEmit "f.xml" ⟨some (some "12-34"), none, some (some "77")⟩ =
      some ("12-34", "IP", "77", "f.xml") ∧
    normalize_inn "12-34" = "1234" ∧
    ("12-34" : String) ≠ "1234" ∧
    ("12-34" : String).toList.any (fun c => ! c.isDigit) = true :=
  ⟨by decide, by decide, by decide, by decide⟩

/-- C2 amended: every tuple emitted for a record carries the raw
identifier attribute with surrounding whitespace stripped (never
digit-filtered); this coincides with the shared normalizer exactly when
the stripped attribute text is already digits-only. -/
theorem c2_extractor_strips_only (f : String) (d : XmlDoc) (t : LoadTuple) (raw : String)
    (hr : rawExtracted d = some raw) (ht : docEmit f d = some t) :
    t.1 = pyStrip raw ∧
    ((pyStrip raw).toList.all Char.isDigit = true → t.1 = normalize_inn raw) := by
  have key : t.1 = pyStrip raw := by
    cases hip : attrVal d.ipVklMSP with
    | some s =>
      have hrs : rawExtracted d = some s := by
        unfold rawExtracted
        rw [hip]
      rw [hrs] at hr
      have hraw : raw = s := (Option.some_inj.mp hr).symm
      subst hraw
      have hext : extract_inn_and_type d = (some (pyStrip raw), some "IP") := by
        unfold extract_inn_and_type
        rw [hip]
      cases hreg : docRegion d with
      | none =>
        have hemit : docEmit f d = none := by
          unfold docEmit
          rw [hext, hreg]
        rw [hemit] at ht
        cases ht
      | some reg =>
        have hemit : docEmit f d =
            if pyStrip raw ≠ "" ∧ reg ≠ "" then some (pyStrip raw, "IP", reg, f)
            else none := by
          unfold docEmit
          rw [hext, hreg]
        rw [hemit] at ht
        by_cases hcond : pyStrip raw ≠ "" ∧ reg ≠ ""
        · rw [if_pos hcond] at ht
          obtain rfl := Option.some_inj.mp ht
          rfl
        · rw [if_neg hcond] at ht
          cases ht
    | none =>
      cases hul : attrVal d.orgVklMSP with
      | none =>
        have hrn : rawExtracted d = none := by
          unfold rawExtracted
          rw [hip, hul]
        rw [hrn] at hr
        cases hr
      | some s =>
        have hrs : rawExtracted d = some s := by
          unfold rawExtracted
          rw [hip, hul]
        rw [hrs] at hr
        have hraw : raw = s := (Option.some_inj.mp hr).symm
        subst hraw
        have hext : extract_inn_and_type d = (some (pyStrip raw), some "UL") := by
          unfold extract_inn_and_type
          rw [hip, hul]
        cases hreg : docRegion d with
        | none =>
          have hemit : docEmit f d = none := by
            unfold docEmit
            rw [hext, hreg]
          rw [hemit] at ht
          cases ht
        | some reg =>
          have hemit : docEmit f d =
              if pyStrip raw ≠ "" ∧ reg ≠ "" then some (pyStrip raw, "UL", reg, f)
              else none := by
            unfold docEmit
            rw [hext, hreg]
          rw [hemit] at ht
          by_cases hcond : pyStrip raw ≠ "" ∧ reg ≠ ""
          · rw [if_pos hcond] at ht
            obtain rfl := Option.some_inj.mp ht
            rfl
          · rw [if_neg hcond] at ht
            cases ht
  exact ⟨key, fun hall => key.trans (pyStrip_eq_normalize_of_digits hall)⟩

/-- Witness for C2 (amended): a whitespace-padded digit attribute is
emitted stripped, and there coincides with the normalizer. -/
theorem c2_extractor_strips_only_witness :
    (("123" : String) = pyStrip " 123 ") ∧ (("123" : String) = normalize_inn " 123 ") := by
  have h := c2_extractor_strips_only "g.xml"
    ⟨some (some " 123 "), none, some (some "77")⟩ ("123", "IP", "77", "g.xml") " 123 "
    rfl (by decide)
  exact ⟨h.1, h.2 (by decide)⟩

/-- C3 counterexample: a row whose target-region value is the non-empty
string " " (whitespace only) is treated as empty by `flush` and gets
overwritten when the identifier matches the store. -/
theorem c3_blank_region_overwritten :
    enrich_file [("123", "77")] 10 [[("ИНН", "123"), ("Регион", " ")]] =
      [[("ИНН", "123"), ("Регион", "77")]] ∧
    rowGetD [("ИНН", "123"), ("Регион", " ")] "Регион" = " " ∧
    (" " : String) ≠ "" :=
  ⟨by decide, by decide, by decide⟩

/-- C3 amended: enrichment is frame-preserving and additive up to
whitespace — for any lookup result, the column set and order are
unchanged, every column other than `Регион` keeps its value, and a row
whose `Регион` value contains any non-whitespace character (is non-blank
after stripping) is written entirely unchanged; `flush` writes each
buffered row through exactly this per-row transform.  A whitespace-only
`Регион` value counts as empty and may be filled. -/
theorem c3_frame_and_blank_additivity (rmap : String → Option String) (row : Row) :
    (enrichWith rmap row).map Prod.fst = row.map Prod.fst ∧
    (∀ k, k ≠ "Регион" → dictLookup (enrichWith rmap row) k = dictLookup row k) ∧
    (pyStrip (rowGetD row "Регион") ≠ "" → enrichWith rmap row = row) ∧
    (∀ (store : RegStore) (binns : List String) (brows : List Row),
      flushRows store binns brows = brows.map (enrichWith (load_regions store binns))) := by
  refine ⟨?_, ?_, ?_, fun store binns brows => rfl⟩
  · unfold enrichWith
    by_cases hcond : normalize_inn (rowGetD row "ИНН") ≠ "" ∧
        pyStrip (rowGetD row "Регион") = ""
    · rw [if_pos hcond]
      cases hm : rmap (normalize_inn (rowGetD row "ИНН")) with
      | none => rfl
      | some reg =>
        show List.map Prod.fst (if reg ≠ "" then rowSet row "Регион" reg else row) =
          List.map Prod.fst row
        by_cases hreg : reg ≠ ""
        · rw [if_pos hreg]
          exact rowSet_keys row _ _
        · rw [if_neg hreg]
    · rw [if_neg hcond]
  · intro k hk
    unfold enrichWith
    by_cases hcond : normalize_inn (rowGetD row "ИНН") ≠ "" ∧
        pyStrip (rowGetD row "Регион") = ""
    · rw [if_pos hcond]
      cases hm : rmap (normalize_inn (rowGetD row "ИНН")) with
      | none => rfl
      | some reg =>
        show dictLookup (if reg ≠ "" then rowSet row "Регион" reg else row) k =
          dictLookup row k
        by_cases hreg : reg ≠ ""
        · rw [if_pos hreg]
          exact dictLookup_rowSet_ne hk
        · rw [if_neg hreg]
    · rw [if_neg hcond]
  · intro hne
    unfold enrichWith
    rw [if_neg (fun hc => hne hc.2)]

/-- Witness for C3 (amended): a non-blank region survives any lookup, and
the identifier column is untouched even when the region is filled. -/
theorem c3_frame_and_blank_additivity_witness :
    enrichWith (fun _ => some "99") [("ИНН", "1"), ("Регион", "55")] =
      [("ИНН", "1"), ("Регион", "55")] ∧
    dictLookup (enrichWith (fun _ => some "99") [("ИНН", "1"), ("Регион", "")]) "ИНН" =
      some "1" := by
  have h1 := c3_frame_and_blank_additivity (fun _ => some "99") [("ИНН", "1"), ("Регион", "55")]
  have h2 := c3_frame_and_blank_additivity (fun _ => some "99") [("ИНН", "1"), ("Регион", "")]
  exact ⟨h1.2.2.1 (by decide), (h2.2.1 "ИНН" (by decide)).trans (by decide)⟩

/-- C4: enrichment completeness.  Over a well-formed store (no empty
identifier, as the loader guarantees): a row whose `Регион` value is
empty and whose normalized identifier is stored receives exactly the
stored region code; a row whose identifier is absent from the store, or
normalizes to the empty string, is written unchanged. -/
theorem c4_enrichment_completeness (store : RegStore) (row : Row)
    (hwf : ∀ p ∈ store, p.1 ≠ "") :
    (∀ r, dictLookup row "Регион" = some "" →
      dictLookup store (rowInn row) = some r →
      dictLookup (enrichRow store row) "Регион" = some r) ∧
    ((dictLookup store (rowInn row) = none ∨ rowInn row = "") →
      enrichRow store row = row) := by
  constructor
  · intro r hreg hlook
    have hmem := dictLookup_some_mem hlook
    have hinn_ne : rowInn row ≠ "" := hwf _ hmem
    have hregD : rowGetD row "Регион" = "" := by
      unfold rowGetD
      rw [hreg]
      rfl
    have hstrip : pyStrip (rowGetD row "Регион") = "" := by
      rw [hregD]
      rfl
    unfold rowInn at hinn_ne hlook
    unfold enrichRow enrichWith
    rw [if_pos ⟨hinn_ne, hstrip⟩, hlook]
    show dictLookup (if r ≠ "" then rowSet row "Регион" r else row) "Регион" = some r
    by_cases hr : r ≠ ""
    · rw [if_pos hr]
      exact dictLookup_rowSet_self r hreg
    · rw [if_neg hr]
      push_neg at hr
      rw [hreg, hr]
  · intro hcase
    unfold rowInn at hcase
    unfold enrichRow enrichWith
    by_cases hcond : normalize_inn (rowGetD row "ИНН") ≠ "" ∧
        pyStrip (rowGetD row "Регион") = ""
    · rw [if_pos hcond]
      rcases hcase with hnone | hempty
      · rw [hnone]
      · exact absurd hempty hcond.1
    · rw [if_neg hcond]

/-- Witness for C4: a stored identifier fills the empty region with the
stored code; an absent identifier leaves the row unchanged. -/
theorem c4_enrichment_completeness_witness :
    dictLookup (enrichRow [("123", "77")] [("ИНН", " 123 "), ("Регион", "")]) "Регион" =
      some "77" ∧
    enrichRow [("123", "77")] [("ИНН", "999"), ("Регион", "")] =
      [("ИНН", "999"), ("Регион", "")] := by
  have h1 := c4_enrichment_completeness [("123", "77")] [("ИНН", " 123 "), ("Регион", "")]
    (by decide)
  have h2 := c4_enrichment_completeness [("123", "77")] [("ИНН", "999"), ("Регион", "")]
    (by decide)
  exact ⟨h1.1 "77" (by decide) (by decide), h2.2 (Or.inl (by decide))⟩

/-- C7 counterexample: a file whose parse fails after one valid record
still contributes that record's tuple to the output — it is warned about
but not "skipped in its entirety". -/
theorem c7_error_file_emits_prior_tuples :
    iter_rows_from_xml
        ⟨"bad.xml", [⟨some (some "123456789012"), none, some (some "77")⟩], some 1⟩ =
      [("123456789012", "IP", "77", "bad.xml")] ∧
    fileWarned
        ⟨"bad.xml", [⟨some (some "123456789012"), none, some (some "77")⟩], some 1⟩ = true ∧
    iter_rows_from_xml
        ⟨"bad.xml", [⟨some (some "123456789012"), none, some (some "77")⟩], some 1⟩ ≠ [] :=
  ⟨by decide, by decide, by decide⟩

/-- C7 amended: when parsing a file raises after `p` completed records, a
warning is reported and the remainder of the file is skipped — the file
contributes exactly the emissions of its pre-error records (which were
already yielded before the failure), and directory-level iteration
continues with the remaining files unaffected; the iteration is a total
function, so no exception escapes it. -/
theorem c7_failure_isolation (f : XmlFile) (p : Nat) (h : f.errPos = some p) :
    iter_rows_from_xml f = (f.docs.take p).filterMap (docEmit f.name) ∧
    fileWarned f = true ∧
    (∀ fs₁ fs₂ : List XmlFile, iter_all_rows (fs₁ ++ f :: fs₂) =
      iter_all_rows fs₁ ++ iter_rows_from_xml f ++ iter_all_rows fs₂) := by
  refine ⟨?_, ?_, ?_⟩
  · unfold iter_rows_from_xml parsedDocs
    rw [h]
  · unfold fileWarned
    rw [h]
    rfl
  · intro fs₁ fs₂
    unfold iter_all_rows
    rw [List.map_append, List.flatten_append, List.map_cons, List.flatten_cons,
      List.append_assoc]

/-- Witness for C7 (amended): a two-record file failing after the first
record yields exactly the first record's tuple and warns. -/
theorem c7_failure_isolation_witness :
    iter_rows_from_xml
        ⟨"bad.xml",
          [⟨some (some "11"), none, some (some "77")⟩,
            ⟨some (some "22"), none, some (some "50")⟩], some 1⟩ =
      [("11", "IP", "77", "bad.xml")] ∧
    fileWarned
        ⟨"bad.xml",
          [⟨some (some "11"), none, some (some "77")⟩,
            ⟨some (some "22"), none, some (some "50")⟩], some 1⟩ = true := by
  have h := c7_failure_isolation
    ⟨"bad.xml",
      [⟨some (some "11"), none, some (some "77")⟩,
        ⟨some (some "22"), none, some (some "50")⟩], some 1⟩ 1 rfl
  exact ⟨h.1.trans (by decide), h.2.1⟩

/-- C9 counterexample: the output header is the csv re-serialization of
the parsed fields, not a byte copy — a quoted input header field loses
its quotes on output even though the pipeline accepts the file (both
required columns are found). -/
theorem c9_header_not_byte_identical :
    headerOut "\"ИНН\";Регион" = "ИНН;Регион" ∧
    ("\"ИНН\";Регион" : String) ≠ "ИНН;Регион" ∧
    "ИНН" ∈ parseHeaderFields "\"ИНН\";Регион" ∧
    "Регион" ∈ parseHeaderFields "\"ИНН\";Регион" :=
  ⟨by decide, by decide, by decide, by decide⟩

/-- C9 amended: the header fields are preserved — the output header is
the parsed field sequence re-serialized with the same delimiter and
minimal quoting, and whenever the input header is in canonical form
(plain fields joined by the delimiter, nothing quoted), the output header
is byte-for-byte identical to the input header. -/
theorem c9_header_roundtrip (fields : List String) (hne : fields ≠ [])
    (hp : ∀ f ∈ fields, plainField f) :
    parseHeaderFields (joinSemi fields) = fields ∧
    headerOut (joinSemi fields) = joinSemi fields := by
  have hparse := parseHeaderFields_joinSemi hne hp
  refine ⟨hparse, ?_⟩
  unfold headerOut writeHeaderLine
  rw [hparse,
    List.map_congr_left (fun f hf => (encodeField_plain (hp f hf)).trans rfl)]
  simp

/-- Witness for C9 (amended): the actual expected header round-trips
unchanged. -/
theorem c9_header_roundtrip_witness : headerOut "ИНН;Регион" = "ИНН;Регион" := by
  have h := c9_header_roundtrip ["ИНН", "Регион"] (by decide) (by decide)
  have e : joinSemi ["ИНН", "Регион"] = "ИНН;Регион" := by decide
  rw [e] at h
  exact h.2

/-- C10: individual-entrepreneur precedence and single emission.  For a
record whose `ИПВклМСП` node carries a non-empty `ИННФЛ` and whose
`ОргВклМСП` node carries a non-empty `ИННЮЛ`, extraction returns the
stripped individual-entrepreneur identifier with type `IP` (the
legal-entity identifier does not influence the result), every tuple
emitted for the record carries that identifier and type, and at most one
tuple is emitted per record. -/
theorem c10_ip_precedence (f : String) (d : XmlDoc) (a b : String)
    (hip : d.ipVklMSP = some (some a)) (ha : a ≠ "")
    (hul : d.orgVklMSP = some (some b)) (hb : b ≠ "") :
    extract_inn_and_type d = (some (pyStrip a), some "IP") ∧
    (∀ t : LoadTuple, docEmit f d = some t → t.1 = pyStrip a ∧ t.2.1 = "IP") ∧
    (docEmit f d).toList.length ≤ 1 := by
  have hattr : attrVal d.ipVklMSP = some a := by
    rw [hip]
    show (if a = "" then none else some a) = some a
    rw [if_neg ha]
  have hext : extract_inn_and_type d = (some (pyStrip a), some "IP") := by
    unfold extract_inn_and_type
    rw [hattr]
  refine ⟨hext, ?_, ?_⟩
  · intro t ht
    cases hreg : docRegion d with
    | none =>
      have hemit : docEmit f d = none := by
        unfold docEmit
        rw [hext, hreg]
      rw [hemit] at ht
      cases ht
    | some reg =>
      have hemit : docEmit f d =
          if pyStrip a ≠ "" ∧ reg ≠ "" then some (pyStrip a, "IP", reg, f) else none := by
        unfold docEmit
        rw [hext, hreg]
      rw [hemit] at ht
      by_cases hcond : pyStrip a ≠ "" ∧ reg ≠ ""
      · rw [if_pos hcond] at ht
        obtain rfl := Option.some_inj.mp ht
        exact ⟨rfl, rfl⟩
      · rw [if_neg hcond] at ht
        cases ht
  · cases docEmit f d <;> simp

/-- Witness for C10: a record with both marker nodes present and
non-empty extracts the individual-entrepreneur identifier with type
`IP`. -/
theorem c10_ip_precedence_witness :
    extract_inn_and_type ⟨some (some "123"), some (some "456"), some (some "77")⟩ =
      (some "123", some "IP") := by
  have h := c10_ip_precedence "f.xml"
    ⟨some (some "123"), some (some "456"), some (some "77")⟩ "123" "456"
    rfl (by decide) rfl (by decide)
  exact h.1.trans (by decide)
